import Mathlib

/-!
Verification of the content-indexing and page-generation pipeline of the
ghpage-blog repository, together with its `Image` presentation wrapper.

The repository's visible source holds the authored MDX documents (each with a
metadata header: `title`, `date`, `tags`, `draft`, `summary`, followed by a
body), the static project-card data, and the `Image` component.  The pipeline
itself (document loader, corpus assembler, tag index builder, pagination
planner, search index builder, feed generator) is not part of the visible
source, so those components are modelled from the specification, as noted on
each definition.  Machine dates are modelled as natural numbers (e.g. the date
2024-01-05 is encoded as 20240105), which preserves the calendar order used as
the primary sort key.
-/

/-- A loaded document record (spec §3). -/
structure Document where
  slug : String
  title : String
  date : Nat
  tags : List String
  draft : Bool
  summary : Option String
  body : String
deriving DecidableEq

/-- Modelled from the spec: structured failures of the Document Loader (§7):
a missing required field is a fatal parse error naming the offending source. -/
inductive DocumentParseError where
  | missingTitle (path : String)
  | missingDate (path : String)
deriving DecidableEq

/-- A raw document source (§4.1): path, parsed metadata header and body.
`date` is `none` when the field is missing or does not parse as a valid
calendar date. -/
structure RawDoc where
  path : String
  title : Option String
  date : Option Nat
  tags : List String
  draft : Option Bool
  summary : Option String
  body : String
deriving DecidableEq

/-- Modelled from the spec: tag normalization performed by the Document Loader
(§4.1): surrounding whitespace is trimmed and the tag is case-folded before
being attached to the Document. -/
def normalizeTag (s : String) : String :=
  ⟨((s.data.dropWhile Char.isWhitespace).rdropWhile Char.isWhitespace).map Char.toLower⟩

/-- Modelled from the spec: the Document Loader (§4.1).  Required fields are
`title` and `date`; `draft` defaults to `false` when absent; tags are
normalized here so every downstream consumer sees canonical tags.  The slug is
derived from the source path. -/
def loadDocument (raw : RawDoc) : Except DocumentParseError Document :=
  match raw.title with
  | none => .error (.missingTitle raw.path)
  | some t =>
    match raw.date with
    | none => .error (.missingDate raw.path)
    | some dt =>
      .ok { slug := raw.path, title := t, date := dt,
            tags := raw.tags.map normalizeTag,
            draft := raw.draft.getD false,
            summary := raw.summary, body := raw.body }

/-- Lexicographic comparison of character lists by code point. -/
def lexLE : List Char → List Char → Bool
  | [], _ => true
  | _ :: _, [] => false
  | a :: as, b :: bs =>
    if a.toNat < b.toNat then true
    else if b.toNat < a.toNat then false
    else lexLE as bs

/-- Lexicographic (ascending) comparison of slugs. -/
def slugLE (a b : String) : Bool := lexLE a.data b.data

/-- Modelled from the spec: the canonical corpus order (§3, §4.2): primary key
`date` descending, secondary key `slug` ascending for equal dates. -/
def canonicalLE (a b : Document) : Prop :=
  b.date < a.date ∨ (a.date = b.date ∧ slugLE a.slug b.slug = true)

instance : DecidableRel canonicalLE := fun a b =>
  inferInstanceAs (Decidable (b.date < a.date ∨ (a.date = b.date ∧ slugLE a.slug b.slug = true)))

instance : IsTotal Document canonicalLE where
  total := by
    have hlex : ∀ as bs : List Char, lexLE as bs = true ∨ lexLE bs as = true := by
      intro as
      induction as with
      | nil => intro bs; left; rfl
      | cons a as ih =>
        intro bs
        cases bs with
        | nil => right; rfl
        | cons b bs =>
          by_cases hab : a.toNat < b.toNat
          · left; simp [lexLE, hab]
          · by_cases hba : b.toNat < a.toNat
            · right; simp [lexLE, hba]
            · rcases ih bs with h | h
              · left; simp [lexLE, hab, hba, h]
              · right; simp [lexLE, hab, hba, h]
    intro a b
    rcases Nat.lt_trichotomy a.date b.date with h | h | h
    · right; left; exact h
    · rcases hlex a.slug.data b.slug.data with hs | hs
      · left; right; exact ⟨h, hs⟩
      · right; right; exact ⟨h.symm, hs⟩
    · left; left; exact h

instance : IsTrans Document canonicalLE where
  trans := by
    have hlex : ∀ as bs cs : List Char,
        lexLE as bs = true → lexLE bs cs = true → lexLE as cs = true := by
      intro as
      induction as with
      | nil => intro bs cs _ _; rfl
      | cons a as ih =>
        intro bs cs h1 h2
        cases bs with
        | nil => simp [lexLE] at h1
        | cons b bs =>
          cases cs with
          | nil => simp [lexLE] at h2
          | cons c cs =>
            simp only [lexLE] at h1 h2 ⊢
            by_cases hab : a.toNat < b.toNat
            · by_cases hbc : b.toNat < c.toNat
              · have hac : a.toNat < c.toNat := by omega
                simp [hac]
              · by_cases hcb : c.toNat < b.toNat
                · rw [if_neg hbc, if_pos hcb] at h2
                  exact absurd h2 (by simp)
                · have hac : a.toNat < c.toNat := by omega
                  simp [hac]
            · by_cases hba : b.toNat < a.toNat
              · rw [if_neg hab, if_pos hba] at h1
                exact absurd h1 (by simp)
              · rw [if_neg hab, if_neg hba] at h1
                by_cases hbc : b.toNat < c.toNat
                · have hac : a.toNat < c.toNat := by omega
                  simp [hac]
                · by_cases hcb : c.toNat < b.toNat
                  · rw [if_neg hbc, if_pos hcb] at h2
                    exact absurd h2 (by simp)
                  · rw [if_neg hbc, if_neg hcb] at h2
                    have hac : ¬ a.toNat < c.toNat := by omega
                    have hca : ¬ c.toNat < a.toNat := by omega
                    rw [if_neg hac, if_neg hca]
                    exact ih bs cs h1 h2
    intro a b c h1 h2
    rcases h1 with h1 | ⟨h1d, h1s⟩
    · rcases h2 with h2 | ⟨h2d, _⟩
      · left; omega
      · left; omega
    · rcases h2 with h2 | ⟨h2d, h2s⟩
      · left; omega
      · right
        refine ⟨by omega, ?_⟩
        exact hlex a.slug.data b.slug.data c.slug.data h1s h2s

/-- Draft filtering (§4.2): drafts are excluded unless preview mode includes
them. -/
def draftFilter (includeDrafts : Bool) (docs : List Document) : List Document :=
  if includeDrafts then docs else docs.filter (fun d => !d.draft)

/-- Modelled from the spec: the Corpus Assembler (§4.2): exclude drafts
(unless in preview mode) and sort into canonical chronological order. -/
def assembleCorpus (includeDrafts : Bool) (docs : List Document) : List Document :=
  List.insertionSort canonicalLE (draftFilter includeDrafts docs)

/-- One entry of the TagIndex (§3): a normalized tag, the ordered sequence of
documents carrying it, and the stored count. -/
structure TagEntry where
  tag : String
  docs : List Document
  count : Nat
deriving DecidableEq

/-- Append a document to the entry of tag `t`, incrementing its stored count;
a fresh entry with count 1 is created when the tag is not yet a key. -/
def addDoc : List TagEntry → String → Document → List TagEntry
  | [], t, d => [⟨t, [d], 1⟩]
  | e :: rest, t, d =>
    if e.tag = t then ⟨e.tag, e.docs ++ [d], e.count + 1⟩ :: rest
    else e :: addDoc rest t d

/-- Modelled from the spec: the Tag Index Builder (§4.3): iterate the corpus
once in order; for each document, for each of its (already-normalized) tags,
append the document to that tag's sequence and increment its count. -/
def buildTagIndex (corpus : List Document) : List TagEntry :=
  corpus.foldl (fun idx d => d.tags.foldl (fun idx2 t => addDoc idx2 t d) idx) []

/-- A pagination page (§3). -/
structure Page where
  pageNumber : Nat
  items : List Document
  totalPages : Nat
  totalItems : Nat
deriving DecidableEq

/-- Split a list into consecutive chunks of size `k` (last chunk possibly
shorter).  The first argument is structural-recursion fuel; it is instantiated
with the list length, which is always sufficient since every step consumes at
least the head element. -/
def chunksFuel (k : Nat) : Nat → List Document → List (List Document)
  | _, [] => []
  | 0, x :: xs => [x :: xs]
  | fuel + 1, x :: xs => (x :: xs.take (k - 1)) :: chunksFuel k fuel (xs.drop (k - 1))

/-- Consecutive chunks of size `k` of a document list. -/
def chunks (k : Nat) (l : List Document) : List (List Document) :=
  chunksFuel k l.length l

/-- Attach 1-indexed contiguous page numbers and the shared page metadata to a
list of chunks, starting from `start`. -/
def numberPages (total totalItems : Nat) : Nat → List (List Document) → List Page
  | _, [] => []
  | start, c :: cs => ⟨start, c, total, totalItems⟩ :: numberPages total totalItems (start + 1) cs

/-- Modelled from the spec: the Pagination Planner (§4.4): partition the input
into consecutive chunks of size `k`; empty input yields exactly one page with
zero items and `totalPages = 1` (the spec's primary policy: never zero
pages). -/
def paginate (k : Nat) (docs : List Document) : List Page :=
  match chunks k docs with
  | [] => [⟨1, [], 1, docs.length⟩]
  | c :: cs => numberPages (c :: cs).length docs.length 1 (c :: cs)

/-- Modelled from the spec: the recoverable error for a page request outside
`[1, totalPages]` (§7). -/
structure PageRangeError where
  requested : Nat
  totalPages : Nat
deriving DecidableEq

/-- Modelled from the spec: page lookup (§4.4): page numbers are 1-indexed;
a request outside `[1, totalPages]` is an out-of-range error, never a
silently clamped result. -/
def requestPage (pages : List Page) (p : Nat) : Except PageRangeError Page :=
  if h : 1 ≤ p ∧ p ≤ pages.length then
    .ok (pages.get ⟨p - 1, by omega⟩)
  else
    .error ⟨p, pages.length⟩

/-- A compact searchable projection of a published document (§3). -/
structure SearchRecord where
  slug : String
  title : String
  tags : List String
  excerpt : String
deriving DecidableEq

/-- Word-boundary-aware cut of a character list at the `budget` position: keep
at most `budget` characters; when the character right after the kept candidate
is not whitespace, the trailing partial word is dropped. -/
def cutAt (budget : Nat) (cs : List Char) : List Char :=
  match cs[budget]? with
  | some c =>
    if c.isWhitespace then cs.take budget
    else (cs.take budget).rdropWhile (fun ch => !ch.isWhitespace)
  | none => cs.take budget

/-- Modelled from the spec: excerpt truncation of the Search Index Builder
(§4.5): the body is truncated to the character budget, cutting only at a word
boundary at or before the limit, never mid-word. -/
def makeExcerpt (budget : Nat) (body : String) : String :=
  if body.length ≤ budget then body else ⟨cutAt budget body.data⟩

/-- Projection of one document to its search record (§4.5). -/
def searchRecordOf (budget : Nat) (d : Document) : SearchRecord :=
  ⟨d.slug, d.title, d.tags, makeExcerpt budget d.body⟩

/-- Modelled from the spec: the Search Index Builder (§4.5): one record per
corpus document, in corpus order. -/
def buildSearchIndex (budget : Nat) (corpus : List Document) : List SearchRecord :=
  corpus.map (searchRecordOf budget)

/-- A syndication feed entry (§3). -/
structure FeedEntry where
  slug : String
  title : String
  date : Nat
  summary : Option String
deriving DecidableEq

/-- Projection of one document to its feed entry (§4.6). -/
def feedEntryOf (d : Document) : FeedEntry :=
  ⟨d.slug, d.title, d.date, d.summary⟩

/-- Modelled from the spec: the Feed Generator (§4.6): the first `n` entries
of the corpus (already date-descending), projected to feed entries. -/
def buildFeed (n : Nat) (corpus : List Document) : List FeedEntry :=
  (corpus.take n).map feedEntryOf

/-- Build configuration (§6). -/
structure Config where
  pageSize : Nat
  feedLimit : Nat
  excerptLength : Nat
  includeDrafts : Bool
deriving DecidableEq

/-- The output artifact set of one build (§6). -/
structure BuildOutput where
  listings : List Page
  tagIndex : List TagEntry
  search : List SearchRecord
  feed : List FeedEntry
deriving DecidableEq

/-- Modelled from the spec: the whole pipeline (§2): Loader output is
assembled into the corpus, of which the four artifact builders are independent
consumers. -/
def runPipeline (cfg : Config) (docs : List Document) : BuildOutput :=
  { listings := paginate cfg.pageSize (assembleCorpus cfg.includeDrafts docs)
    tagIndex := buildTagIndex (assembleCorpus cfg.includeDrafts docs)
    search := buildSearchIndex cfg.excerptLength (assembleCorpus cfg.includeDrafts docs)
    feed := buildFeed cfg.feedLimit (assembleCorpus cfg.includeDrafts docs) }

/-- A document appears in the paginated listings of a build output. -/
abbrev inListings (d : Document) (out : BuildOutput) : Prop :=
  ∃ pg ∈ out.listings, d ∈ pg.items

/-- A document appears in the tag index of a build output. -/
abbrev inTagIndex (d : Document) (out : BuildOutput) : Prop :=
  ∃ e ∈ out.tagIndex, d ∈ e.docs

/-- A document appears (by slug) in the search payload of a build output. -/
abbrev inSearch (d : Document) (out : BuildOutput) : Prop :=
  ∃ r ∈ out.search, r.slug = d.slug

/-- A document appears (by slug) in the feed of a build output. -/
abbrev inFeed (d : Document) (out : BuildOutput) : Prop :=
  ∃ f ∈ out.feed, f.slug = d.slug

/-- The props handed to the `Image` component (src plus the remaining props,
modelled as an association list passed through opaquely). -/
structure ImageProps where
  src : String
  rest : List (String × String)
deriving DecidableEq

/-- The `NextImage` element produced by rendering. -/
structure NextImageElem where
  src : String
  rest : List (String × String)
deriving DecidableEq

/-- The `Image` wrapper component of the repository: it renders a `NextImage`
whose `src` is the given `src` prefixed with the `/ghpage-blog` base path, and
spreads every remaining prop through unchanged. -/
def Image (props : ImageProps) : NextImageElem :=
  { src := "/ghpage-blog" ++ props.src, rest := props.rest }

/- Concrete example data used by the worked examples and witnesses. -/

/-- Example document with slug `a`, dated 2024-01-05. -/
def docA : Document := ⟨"a", "A", 20240105, [], false, none, ""⟩

/-- Example document with slug `b`, dated 2024-01-01. -/
def docB : Document := ⟨"b", "B", 20240101, [], false, none, ""⟩

/-- Example document with slug `c`, dated 2024-01-05. -/
def docC : Document := ⟨"c", "C", 20240105, [], false, none, ""⟩

/-- Example document with slug `d`, dated 2024-01-03. -/
def docD : Document := ⟨"d", "D", 20240103, [], false, none, ""⟩

/-- Example document with slug `e`, dated 2024-01-10. -/
def docE : Document := ⟨"e", "E", 20240110, [], false, none, ""⟩

/-- The spec's five-document example corpus, in load order c, a, d, e, b. -/
def docsEx : List Document := [docC, docA, docD, docE, docB]

/-- Raw source whose tag list is `["Go"]`. -/
def rawGo1 : RawDoc := ⟨"p1", some "T1", some 20240101, ["Go"], some false, none, ""⟩

/-- Raw source whose tag list is `["go"]`. -/
def rawGo2 : RawDoc := ⟨"p2", some "T2", some 20240102, ["go"], some false, none, ""⟩

/-- Raw source whose tag list is `[" GO "]`. -/
def rawGo3 : RawDoc := ⟨"p3", some "T3", some 20240103, [" GO "], some false, none, ""⟩

/-- The documents obtained by loading the three `Go`-tagged raw sources. -/
def loadedGo : List Document :=
  [rawGo1, rawGo2, rawGo3].filterMap (fun r => (loadDocument r).toOption)

/-- The document the loader produces from `rawGo3`. -/
def docGo3 : Document := ⟨"p3", "T3", 20240103, ["go"], false, none, ""⟩

/-- A tag entry carrying `docGo3` alone. -/
def entryGo : TagEntry := ⟨"go", [docGo3], 1⟩

/-- A draft document carrying one tag, used in the preview-mode witness. -/
def dDraft : Document := ⟨"w1", "W1", 20240201, ["x"], true, none, ""⟩

/-- A published companion document for the preview-mode witness. -/
def dPub : Document := ⟨"w2", "W2", 20240202, ["x"], false, none, ""⟩

/-- The two-document input of the draft-visibility witness. -/
def docsW : List Document := [dDraft, dPub]

/-- A configuration with preview mode off. -/
def cfgOff : Config := ⟨2, 5, 40, false⟩

/-- A configuration with preview mode on. -/
def cfgOn : Config := ⟨2, 5, 40, true⟩

/-- A draft document carrying no tag at all. -/
def dNoTag : Document := ⟨"n1", "N1", 20240301, [], true, none, ""⟩

/-- Example body used by the excerpt-truncation witness. -/
def bodyEx : String := "hello world again"

/- Helper lemmas about pagination. -/

/-- Concatenating the fuel-driven chunks reproduces the input list. -/
theorem chunksFuel_flatten (k : Nat) : ∀ (fuel : Nat) (l : List Document),
    (chunksFuel k fuel l).flatten = l := by
  intro fuel
  induction fuel with
  | zero =>
    intro l
    cases l with
    | nil => rfl
    | cons x xs => simp [chunksFuel]
  | succ fuel ih =>
    intro l
    cases l with
    | nil => rfl
    | cons x xs =>
      simp only [chunksFuel, List.flatten_cons, ih]
      simp [List.take_append_drop]

/-- Concatenating the chunks reproduces the input list. -/
theorem chunks_flatten (k : Nat) (l : List Document) : (chunks k l).flatten = l :=
  chunksFuel_flatten k l.length l

/-- The chunk list is empty exactly for the empty input. -/
theorem chunks_eq_nil_iff (k : Nat) (l : List Document) : chunks k l = [] ↔ l = [] := by
  cases l with
  | nil => simp [chunks, chunksFuel]
  | cons x xs =>
    simp only [chunks, List.length_cons]
    simp [chunksFuel]

/-- `numberPages` stores the given chunks as the page items, in order. -/
theorem numberPages_map_items (t ti : Nat) : ∀ (s : Nat) (cs : List (List Document)),
    (numberPages t ti s cs).map Page.items = cs := by
  intro s cs
  induction cs generalizing s with
  | nil => rfl
  | cons c cs ih => simp [numberPages, ih]

/-- `numberPages` produces one page per chunk. -/
theorem numberPages_length (t ti : Nat) : ∀ (s : Nat) (cs : List (List Document)),
    (numberPages t ti s cs).length = cs.length := by
  intro s cs
  induction cs generalizing s with
  | nil => rfl
  | cons c cs ih => simp [numberPages, ih]

/-- The page numbers assigned by `numberPages` are contiguous from `s`. -/
theorem numberPages_map_pageNumber (t ti : Nat) : ∀ (s : Nat) (cs : List (List Document)),
    (numberPages t ti s cs).map Page.pageNumber = List.range' s cs.length := by
  intro s cs
  induction cs generalizing s with
  | nil => rfl
  | cons c cs ih => simp [numberPages, ih, List.range'_succ]

/-- The page number of the page at position `i` is `i + 1`. -/
theorem numberPages_getElem_pageNumber (t ti : Nat) :
    ∀ (s : Nat) (cs : List (List Document)) (i : Nat)
      (h : i < (numberPages t ti s cs).length),
      ((numberPages t ti s cs)[i]).pageNumber = s + i := by
  intro s cs
  induction cs generalizing s with
  | nil => intro i h; simp [numberPages] at h
  | cons c cs ih =>
    intro i h
    cases i with
    | zero => rfl
    | succ i =>
      have h' : i < (numberPages t ti (s + 1) cs).length := by
        simpa [numberPages] using h
      simp only [numberPages, List.getElem_cons_succ]
      rw [ih (s + 1) i h']
      omega

/-- Concatenating the items of all pages, in page order, reproduces the
paginated list. -/
theorem paginate_flatten (k : Nat) (l : List Document) :
    ((paginate k l).map Page.items).flatten = l := by
  cases hc : chunks k l with
  | nil =>
    have hl : l = [] := (chunks_eq_nil_iff k l).1 hc
    subst hl
    rfl
  | cons c cs =>
    simp only [paginate, hc, numberPages_map_items]
    rw [← hc, chunks_flatten]

/-- A document belongs to some page of the pagination exactly when it belongs
to the paginated list. -/
theorem mem_paginate_iff (k : Nat) (l : List Document) (x : Document) :
    (∃ pg ∈ paginate k l, x ∈ pg.items) ↔ x ∈ l := by
  constructor
  · rintro ⟨pg, hpg, hx⟩
    have hmem : x ∈ ((paginate k l).map Page.items).flatten :=
      List.mem_flatten.2 ⟨pg.items, List.mem_map_of_mem _ hpg, hx⟩
    rwa [paginate_flatten] at hmem
  · intro hx
    rw [← paginate_flatten k l] at hx
    obtain ⟨ys, hys, hx⟩ := List.mem_flatten.1 hx
    obtain ⟨pg, hpg, rfl⟩ := List.mem_map.1 hys
    exact ⟨pg, hpg, hx⟩

/-- The page numbers of a pagination are `1, 2, ..., totalPages`. -/
theorem paginate_map_pageNumber (k : Nat) (l : List Document) :
    (paginate k l).map Page.pageNumber = List.range' 1 (paginate k l).length := by
  cases hc : chunks k l with
  | nil =>
    simp only [paginate, hc]
    rfl
  | cons c cs =>
    simp only [paginate, hc, numberPages_map_pageNumber, numberPages_length]

/-- The page stored at position `i` of a pagination carries page number
`i + 1`. -/
theorem paginate_getElem_pageNumber (k : Nat) (l : List Document) (i : Nat)
    (h : i < (paginate k l).length) : ((paginate k l)[i]).pageNumber = i + 1 := by
  cases hc : chunks k l with
  | nil =>
    simp only [paginate, hc] at h ⊢
    have hi : i = 0 := by simpa [Nat.lt_one_iff] using h
    subst hi
    rfl
  | cons c cs =>
    simp only [paginate, hc] at h ⊢
    rw [numberPages_getElem_pageNumber _ _ 1 (c :: cs) i (by simpa using h)]
    omega

/- Helper lemmas about the assembled corpus. -/

/-- Membership in the assembled corpus is membership in the draft-filtered
input. -/
theorem mem_assembleCorpus (b : Bool) (docs : List Document) (x : Document) :
    x ∈ assembleCorpus b docs ↔ x ∈ draftFilter b docs :=
  List.mem_insertionSort canonicalLE

/-- Every corpus member comes from the loaded documents. -/
theorem mem_of_mem_assembleCorpus {b : Bool} {docs : List Document} {x : Document}
    (h : x ∈ assembleCorpus b docs) : x ∈ docs := by
  rw [mem_assembleCorpus] at h
  cases b with
  | false => exact (List.mem_filter.1 h).1
  | true => exact h

/-- In default mode (preview off) every corpus member is a non-draft. -/
theorem draft_false_of_mem_assembleCorpus {docs : List Document} {x : Document}
    (h : x ∈ assembleCorpus false docs) : x.draft = false := by
  rw [mem_assembleCorpus] at h
  have := (List.mem_filter.1 h).2
  simpa using this

/-- In preview mode every loaded document is a corpus member. -/
theorem mem_assembleCorpus_of_preview {docs : List Document} {x : Document}
    (h : x ∈ docs) : x ∈ assembleCorpus true docs := by
  rw [mem_assembleCorpus]
  exact h

/- Helper lemmas about the tag index. -/

/-- `addDoc` preserves the per-entry invariants of §3 when the inserted
document does carry the inserted tag. -/
theorem addDoc_wf : ∀ (idx : List TagEntry) (t : String) (d : Document), t ∈ d.tags →
    (∀ e ∈ idx, e.count = e.docs.length ∧ e.docs ≠ [] ∧ ∀ x ∈ e.docs, e.tag ∈ x.tags) →
    ∀ e ∈ addDoc idx t d,
      e.count = e.docs.length ∧ e.docs ≠ [] ∧ ∀ x ∈ e.docs, e.tag ∈ x.tags := by
  intro idx
  induction idx with
  | nil =>
    intro t d ht _ e he
    simp only [addDoc, List.mem_singleton] at he
    subst he
    refine ⟨rfl, by simp, ?_⟩
    intro x hx
    simp only [List.mem_singleton] at hx
    subst hx
    exact ht
  | cons e0 rest ih =>
    intro t d ht h e he
    simp only [addDoc] at he
    by_cases h0 : e0.tag = t
    · rw [if_pos h0] at he
      rcases List.mem_cons.1 he with rfl | hmem
      · obtain ⟨hc, _, hall⟩ := h e0 (List.mem_cons_self _ _)
        refine ⟨by simp [hc], by simp, ?_⟩
        intro x hx
        rcases List.mem_append.1 hx with hx | hx
        · exact hall x hx
        · simp only [List.mem_singleton] at hx
          subst hx
          simpa [h0] using ht
      · exact h e (List.mem_cons_of_mem _ hmem)
    · rw [if_neg h0] at he
      rcases List.mem_cons.1 he with rfl | hmem
      · exact h e (List.mem_cons_self _ _)
      · exact ih t d ht (fun e' he' => h e' (List.mem_cons_of_mem _ he')) e hmem

/-- Folding a document's tag list through `addDoc` preserves the per-entry
invariants. -/
theorem foldl_addDoc_wf : ∀ (ts : List String) (d : Document) (idx : List TagEntry),
    (∀ t ∈ ts, t ∈ d.tags) →
    (∀ e ∈ idx, e.count = e.docs.length ∧ e.docs ≠ [] ∧ ∀ x ∈ e.docs, e.tag ∈ x.tags) →
    ∀ e ∈ ts.foldl (fun i t => addDoc i t d) idx,
      e.count = e.docs.length ∧ e.docs ≠ [] ∧ ∀ x ∈ e.docs, e.tag ∈ x.tags := by
  intro ts
  induction ts with
  | nil => intro d idx _ h; exact h
  | cons t ts ih =>
    intro d idx hts h
    simp only [List.foldl_cons]
    exact ih d (addDoc idx t d) (fun t' ht' => hts t' (List.mem_cons_of_mem _ ht'))
      (addDoc_wf idx t d (hts t (List.mem_cons_self _ _)) h)

/-- Folding a document list through the tag index builder step preserves the
per-entry invariants. -/
theorem foldl_docs_wf : ∀ (l : List Document) (idx : List TagEntry),
    (∀ e ∈ idx, e.count = e.docs.length ∧ e.docs ≠ [] ∧ ∀ x ∈ e.docs, e.tag ∈ x.tags) →
    ∀ e ∈ l.foldl (fun i d => d.tags.foldl (fun i2 t => addDoc i2 t d) i) idx,
      e.count = e.docs.length ∧ e.docs ≠ [] ∧ ∀ x ∈ e.docs, e.tag ∈ x.tags := by
  intro l
  induction l with
  | nil => intro idx h; exact h
  | cons d l ih =>
    intro idx h
    simp only [List.foldl_cons]
    exact ih _ (foldl_addDoc_wf d.tags d idx (fun _ ht => ht) h)

/-- Every document stored under an `addDoc` result either was already stored
or is the inserted document. -/
theorem addDoc_docs_sub {S : List Document} : ∀ (idx : List TagEntry) (t : String)
    (d : Document), d ∈ S → (∀ e ∈ idx, ∀ x ∈ e.docs, x ∈ S) →
    ∀ e ∈ addDoc idx t d, ∀ x ∈ e.docs, x ∈ S := by
  intro idx
  induction idx with
  | nil =>
    intro t d hd _ e he x hx
    simp only [addDoc, List.mem_singleton] at he
    subst he
    simp only [List.mem_singleton] at hx
    subst hx
    exact hd
  | cons e0 rest ih =>
    intro t d hd h e he x hx
    simp only [addDoc] at he
    by_cases h0 : e0.tag = t
    · rw [if_pos h0] at he
      rcases List.mem_cons.1 he with rfl | hmem
      · rcases List.mem_append.1 hx with hx | hx
        · exact h e0 (List.mem_cons_self _ _) x hx
        · simp only [List.mem_singleton] at hx
          subst hx
          exact hd
      · exact h e (List.mem_cons_of_mem _ hmem) x hx
    · rw [if_neg h0] at he
      rcases List.mem_cons.1 he with rfl | hmem
      · exact h e (List.mem_cons_self _ _) x hx
      · exact ih t d hd (fun e' he' => h e' (List.mem_cons_of_mem _ he')) e hmem x hx

/-- Folding a tag list through `addDoc` only ever stores documents of `S`. -/
theorem foldl_addDoc_docs_sub {S : List Document} : ∀ (ts : List String) (d : Document)
    (idx : List TagEntry), d ∈ S → (∀ e ∈ idx, ∀ x ∈ e.docs, x ∈ S) →
    ∀ e ∈ ts.foldl (fun i t => addDoc i t d) idx, ∀ x ∈ e.docs, x ∈ S := by
  intro ts
  induction ts with
  | nil => intro d idx _ h; exact h
  | cons t ts ih =>
    intro d idx hd h
    simp only [List.foldl_cons]
    exact ih d _ hd (addDoc_docs_sub idx t d hd h)

/-- Folding a document list through the builder step only ever stores
documents of `S`. -/
theorem foldl_docs_docs_sub {S : List Document} : ∀ (l : List Document)
    (idx : List TagEntry), (∀ d ∈ l, d ∈ S) → (∀ e ∈ idx, ∀ x ∈ e.docs, x ∈ S) →
    ∀ e ∈ l.foldl (fun i d => d.tags.foldl (fun i2 t => addDoc i2 t d) i) idx,
      ∀ x ∈ e.docs, x ∈ S := by
  intro l
  induction l with
  | nil => intro idx _ h; exact h
  | cons d l ih =>
    intro idx hl h
    simp only [List.foldl_cons]
    exact ih _ (fun d' hd' => hl d' (List.mem_cons_of_mem _ hd'))
      (foldl_addDoc_docs_sub d.tags d idx (hl d (List.mem_cons_self _ _)) h)

/-- Every document stored in the tag index is a corpus member. -/
theorem mem_corpus_of_mem_tagIndex {corpus : List Document} {e : TagEntry}
    {x : Document} (he : e ∈ buildTagIndex corpus) (hx : x ∈ e.docs) : x ∈ corpus :=
  foldl_docs_docs_sub corpus [] (fun _ hd => hd) (by simp) e he x hx

/-- `addDoc` preserves the presence of any already-stored document. -/
theorem addDoc_preserves_mem {x : Document} : ∀ (idx : List TagEntry) (t : String)
    (d : Document), (∃ e ∈ idx, x ∈ e.docs) → ∃ e ∈ addDoc idx t d, x ∈ e.docs := by
  intro idx
  induction idx with
  | nil =>
    intro t d h
    obtain ⟨e, he, _⟩ := h
    exact absurd he (List.not_mem_nil e)
  | cons e0 rest ih =>
    intro t d h
    obtain ⟨e, he, hx⟩ := h
    simp only [addDoc]
    by_cases h0 : e0.tag = t
    · rw [if_pos h0]
      rcases List.mem_cons.1 he with rfl | hmem
      · exact ⟨_, List.mem_cons_self _ _, List.mem_append.2 (Or.inl hx)⟩
      · exact ⟨e, List.mem_cons_of_mem _ hmem, hx⟩
    · rw [if_neg h0]
      rcases List.mem_cons.1 he with rfl | hmem
      · exact ⟨e, List.mem_cons_self _ _, hx⟩
      · obtain ⟨e', he', hx'⟩ := ih t d ⟨e, hmem, hx⟩
        exact ⟨e', List.mem_cons_of_mem _ he', hx'⟩

/-- After `addDoc idx t d`, the document `d` is stored somewhere. -/
theorem addDoc_mem_self : ∀ (idx : List TagEntry) (t : String) (d : Document),
    ∃ e ∈ addDoc idx t d, d ∈ e.docs := by
  intro idx
  induction idx with
  | nil => intro t d; exact ⟨⟨t, [d], 1⟩, by simp [addDoc]⟩
  | cons e0 rest ih =>
    intro t d
    simp only [addDoc]
    by_cases h0 : e0.tag = t
    · rw [if_pos h0]
      exact ⟨_, List.mem_cons_self _ _, List.mem_append.2 (Or.inr (by simp))⟩
    · rw [if_neg h0]
      obtain ⟨e', he', hx'⟩ := ih t d
      exact ⟨e', List.mem_cons_of_mem _ he', hx'⟩

/-- Folding a tag list through `addDoc` preserves the presence of any
already-stored document. -/
theorem foldl_addDoc_preserves_mem {x : Document} : ∀ (ts : List String)
    (d : Document) (idx : List TagEntry), (∃ e ∈ idx, x ∈ e.docs) →
    ∃ e ∈ ts.foldl (fun i t => addDoc i t d) idx, x ∈ e.docs := by
  intro ts
  induction ts with
  | nil => intro d idx h; exact h
  | cons t ts ih =>
    intro d idx h
    simp only [List.foldl_cons]
    exact ih d _ (addDoc_preserves_mem idx t d h)

/-- After folding a non-empty tag list of `d` through `addDoc`, the document
`d` is stored somewhere. -/
theorem foldl_addDoc_mem_self : ∀ (ts : List String) (d : Document)
    (idx : List TagEntry), ts ≠ [] →
    ∃ e ∈ ts.foldl (fun i t => addDoc i t d) idx, d ∈ e.docs := by
  intro ts
  cases ts with
  | nil => intro d idx h; exact absurd rfl h
  | cons t ts =>
    intro d idx _
    simp only [List.foldl_cons]
    exact foldl_addDoc_preserves_mem ts d _ (addDoc_mem_self idx t d)

/-- Folding a document list through the builder step preserves the presence of
any already-stored document. -/
theorem foldl_docs_preserves_mem {x : Document} : ∀ (l : List Document)
    (idx : List TagEntry), (∃ e ∈ idx, x ∈ e.docs) →
    ∃ e ∈ l.foldl (fun i d => d.tags.foldl (fun i2 t => addDoc i2 t d) i) idx,
      x ∈ e.docs := by
  intro l
  induction l with
  | nil => intro idx h; exact h
  | cons d l ih =>
    intro idx h
    simp only [List.foldl_cons]
    exact ih _ (foldl_addDoc_preserves_mem d.tags d idx h)

/-- Every corpus document carrying at least one tag is stored in the tag
index. -/
theorem mem_tagIndex_of_tags {corpus : List Document} {d : Document}
    (hd : d ∈ corpus) (ht : d.tags ≠ []) : ∃ e ∈ buildTagIndex corpus, d ∈ e.docs := by
  obtain ⟨l1, l2, rfl⟩ := List.append_of_mem hd
  unfold buildTagIndex
  rw [List.foldl_append, List.foldl_cons]
  exact foldl_docs_preserves_mem l2 _ (foldl_addDoc_mem_self d.tags d _ ht)

/- Claim theorems. -/

/-- C1: for every ordered document list and every positive page size `k`,
concatenating the items of all pages produced by the Pagination Planner, in
page order, yields exactly the original list — no element missing, none
duplicated, relative order preserved. -/
theorem paginate_partition (docs : List Document) (k : Nat) (_hk : 0 < k) :
    ((paginate k docs).map Page.items).flatten = docs :=
  paginate_flatten k docs

/-- Witness for C1 at the five-document example corpus with page size 2. -/
theorem paginate_partition_witness :
    ((paginate 2 docsEx).map Page.items).flatten = docsEx :=
  paginate_partition docsEx 2 (by decide)

/-- C2: the corpus produced by the Corpus Assembler is sorted by date
descending with slug ascending as the tie-break for equal dates; on the five
documents dated 2024-01-05, 2024-01-05, 2024-01-03, 2024-01-10, 2024-01-01
with slugs c, a, d, e, b, the assembled order is [e, a, c, d, b]. -/
theorem corpus_canonical_order :
    (∀ (b : Bool) (docs : List Document),
      List.Sorted canonicalLE (assembleCorpus b docs)) ∧
    assembleCorpus false docsEx = [docE, docA, docC, docD, docB] :=
  ⟨fun _ docs => List.sorted_insertionSort canonicalLE _, by decide⟩

/-- C3: every entry of the tag index satisfies the §3 invariants: the stored
count equals the length of the entry's document sequence, the sequence is
never empty (a tag with no remaining carrier does not appear at all), and
every stored document carries the entry's tag. -/
theorem tag_index_invariants (corpus : List Document) (e : TagEntry)
    (he : e ∈ buildTagIndex corpus) :
    e.count = e.docs.length ∧ e.docs ≠ [] ∧ ∀ d ∈ e.docs, e.tag ∈ d.tags :=
  foldl_docs_wf corpus [] (by simp) e he

/-- Witness for C3 at a one-document corpus whose single tag is `go`. -/
theorem tag_index_invariants_witness :
    entryGo.count = entryGo.docs.length ∧ entryGo.docs ≠ [] :=
  ⟨(tag_index_invariants [docGo3] entryGo (by decide)).1,
   (tag_index_invariants [docGo3] entryGo (by decide)).2.1⟩

/-- C5: the pipeline is deterministic — running it twice on the same input
corpus and the same configuration produces identical listings, tag index,
search payload, and feed. -/
theorem pipeline_deterministic (cfg : Config) (docs : List Document) :
    runPipeline cfg docs = runPipeline cfg docs := rfl

/-- C6: the Document Loader normalizes every raw tag value (case-fold plus
trim of surrounding whitespace) before attaching it to the Document; the tags
`"Go"`, `"go"`, `" GO "` on three documents collapse to the single tag index
key `go` with count 3. -/
theorem loader_normalizes_tags :
    (∀ (raw : RawDoc) (d : Document), loadDocument raw = .ok d →
      d.tags = raw.tags.map normalizeTag) ∧
    (buildTagIndex (assembleCorpus false loadedGo)).map (fun e => (e.tag, e.count)) =
      [("go", 3)] := by
  constructor
  · intro raw d h
    unfold loadDocument at h
    split at h
    · cases h
    · split at h
      · cases h
      · cases h
        rfl
  · decide

/-- Witness for C6: loading the raw source tagged `" GO "` attaches its
normalized tag list. -/
theorem loader_normalizes_tags_witness :
    docGo3.tags = rawGo3.tags.map normalizeTag :=
  loader_normalizes_tags.1 rawGo3 docGo3 (by rfl)

/-- C7: for the empty input list and any positive page size, the Pagination
Planner returns exactly one page with zero items and `totalPages = 1`, never
zero pages. -/
theorem paginate_empty (k : Nat) (_hk : 0 < k) :
    paginate k [] = [{ pageNumber := 1, items := [], totalPages := 1, totalItems := 0 }] :=
  rfl

/-- Witness for C7 at page size 3. -/
theorem paginate_empty_witness :
    paginate 3 [] = [{ pageNumber := 1, items := [], totalPages := 1, totalItems := 0 }] :=
  paginate_empty 3 (by decide)

/-- C10: the `Image` component renders the underlying `NextImage` with `src`
equal to `/ghpage-blog` concatenated in front of the given `src`, and every
other supplied prop passed through unchanged. -/
theorem image_base_path (props : ImageProps) :
    (Image props).src = "/ghpage-blog" ++ props.src ∧ (Image props).rest = props.rest :=
  ⟨rfl, rfl⟩

/-- C8: page numbers are 1-indexed and contiguous, and requesting a page
number outside `[1, totalPages]` yields a `PageRangeError` (a recoverable
error), never a silently clamped page: in range, the returned page carries
exactly the requested number. -/
theorem page_range_checked (docs : List Document) (k p : Nat) :
    ((paginate k docs).map Page.pageNumber = List.range' 1 (paginate k docs).length) ∧
    (p < 1 ∨ (paginate k docs).length < p →
      requestPage (paginate k docs) p = .error ⟨p, (paginate k docs).length⟩) ∧
    (1 ≤ p → p ≤ (paginate k docs).length →
      (requestPage (paginate k docs) p).map Page.pageNumber = .ok p) := by
  refine ⟨paginate_map_pageNumber k docs, ?_, ?_⟩
  · intro h
    simp only [requestPage]
    rw [dif_neg (by omega)]
  · intro h1 h2
    simp only [requestPage]
    rw [dif_pos ⟨h1, h2⟩]
    have hpn := paginate_getElem_pageNumber k docs (p - 1) (by omega)
    simp only [Except.map, List.get_eq_getElem, hpn]
    have hp : p - 1 + 1 = p := by omega
    rw [hp]

/-- Witness for C8: on the example corpus with page size 2, requesting page 5
is an out-of-range error and requesting page 1 returns page number 1. -/
theorem page_range_checked_witness :
    requestPage (paginate 2 docsEx) 5 = .error ⟨5, (paginate 2 docsEx).length⟩ ∧
    (requestPage (paginate 2 docsEx) 1).map Page.pageNumber = .ok 1 :=
  ⟨(page_range_checked docsEx 2 5).2.1 (by decide),
   (page_range_checked docsEx 2 1).2.2 (by decide) (by decide)⟩

/-- C9: for every body longer than the excerpt budget, the excerpt produced by
the Search Index Builder never exceeds the budget, is a prefix of the body,
and ends exactly at a word boundary — it is empty, or ends with a whitespace
character, or the body character immediately after it is whitespace, so it
never cuts mid-word. -/
theorem excerpt_word_boundary (budget : Nat) (body : String)
    (h : budget < body.length) :
    (makeExcerpt budget body).length ≤ budget ∧
    (makeExcerpt budget body).data <+: body.data ∧
    ((makeExcerpt budget body).data = [] ∨
      (makeExcerpt budget body).data.getLast?.any Char.isWhitespace = true ∨
      body.data[(makeExcerpt budget body).length]?.any Char.isWhitespace = true) := by
  have hb : budget < body.data.length := h
  have hx : makeExcerpt budget body = ⟨cutAt budget body.data⟩ := by
    simp only [makeExcerpt]
    rw [if_neg (by omega)]
  rw [hx]
  show (cutAt budget body.data).length ≤ budget ∧
    cutAt budget body.data <+: body.data ∧
    (cutAt budget body.data = [] ∨
      (cutAt budget body.data).getLast?.any Char.isWhitespace = true ∨
      body.data[(cutAt budget body.data).length]?.any Char.isWhitespace = true)
  rcases hsome : body.data[budget]? with _ | c
  · rw [List.getElem?_eq_none_iff] at hsome
    omega
  · by_cases hw : c.isWhitespace
    · have hcut : cutAt budget body.data = body.data.take budget := by
        simp only [cutAt, hsome]
        rw [if_pos hw]
      rw [hcut]
      have hlen : (body.data.take budget).length = budget := by
        rw [List.length_take]
        omega
      refine ⟨by omega, List.take_prefix budget body.data, ?_⟩
      right; right
      rw [hlen, hsome]
      simp [Option.any, hw]
    · have hcut : cutAt budget body.data =
          (body.data.take budget).rdropWhile (fun ch => !ch.isWhitespace) := by
        simp only [cutAt, hsome]
        rw [if_neg hw]
      rw [hcut]
      have hpre1 : (body.data.take budget).rdropWhile (fun ch => !ch.isWhitespace) <+:
          body.data.take budget := List.rdropWhile_prefix _ _
      have hpre : (body.data.take budget).rdropWhile (fun ch => !ch.isWhitespace) <+:
          body.data := hpre1.trans ( List.take_prefix budget body.data)
      refine ⟨?_, hpre, ?_⟩
      · have h1 := hpre1.length_le
        have h2 : (body.data.take budget).length ≤ budget := by
          rw [List.length_take]
          omega
        omega
      · by_cases hres : (body.data.take budget).rdropWhile (fun ch => !ch.isWhitespace) = []
        · left; exact hres
        · right; left
          have hlast := List.rdropWhile_last_not (fun ch => !ch.isWhitespace)
            (body.data.take budget) hres
          rw [List.getLast?_eq_getLast _ hres]
          simp only [Option.any]
          simpa using hlast

/-- Witness for C9 at budget 9 on the 17-character example body. -/
theorem excerpt_word_boundary_witness :
    (makeExcerpt 9 bodyEx).length ≤ 9 ∧
    (makeExcerpt 9 bodyEx).data <+: bodyEx.data ∧
    ((makeExcerpt 9 bodyEx).data = [] ∨
      (makeExcerpt 9 bodyEx).data.getLast?.any Char.isWhitespace = true ∨
      bodyEx.data[(makeExcerpt 9 bodyEx).length]?.any Char.isWhitespace = true) :=
  excerpt_word_boundary 9 bodyEx (by decide)

/-- C4 (amended): a document with `draft = true` appears in no output artifact
(listings, tag index, search payload, feed) when preview mode is off; when
preview mode is enabled it appears in the listings and the search payload,
appears in the tag index provided it carries at least one tag, and appears in
the feed provided the feed limit covers the whole input. -/
theorem draft_visibility (cfg : Config) (docs : List Document) (d : Document)
    (hmem : d ∈ docs) (hdraft : d.draft = true)
    (huniq : (docs.map Document.slug).Nodup) :
    (cfg.includeDrafts = false →
      ¬ inListings d (runPipeline cfg docs) ∧ ¬ inTagIndex d (runPipeline cfg docs) ∧
        ¬ inSearch d (runPipeline cfg docs) ∧ ¬ inFeed d (runPipeline cfg docs)) ∧
    (cfg.includeDrafts = true →
      inListings d (runPipeline cfg docs) ∧ inSearch d (runPipeline cfg docs) ∧
        (d.tags ≠ [] → inTagIndex d (runPipeline cfg docs)) ∧
        (docs.length ≤ cfg.feedLimit → inFeed d (runPipeline cfg docs))) := by
  have hinj : ∀ d' ∈ docs, d'.slug = d.slug → d' = d :=
    fun d' hd' hs => List.inj_on_of_nodup_map huniq hd' hmem hs
  constructor
  · intro hoff
    have hnotin : d ∉ assembleCorpus cfg.includeDrafts docs := by
      rw [hoff]
      intro hc
      have hfd := draft_false_of_mem_assembleCorpus hc
      rw [hdraft] at hfd
      cases hfd
    refine ⟨?_, ?_, ?_, ?_⟩
    · rintro ⟨pg, hpg, hd⟩
      exact hnotin ((mem_paginate_iff cfg.pageSize _ d).1 ⟨pg, hpg, hd⟩)
    · rintro ⟨e, he, hd⟩
      exact hnotin (mem_corpus_of_mem_tagIndex he hd)
    · rintro ⟨r, hr, hs⟩
      obtain ⟨d', hd', rfl⟩ := List.mem_map.1 hr
      have heq : d' = d := hinj d' (mem_of_mem_assembleCorpus hd') hs
      subst heq
      exact hnotin hd'
    · rintro ⟨f, hf, hs⟩
      obtain ⟨d', hd', rfl⟩ := List.mem_map.1 hf
      have hd'mem : d' ∈ assembleCorpus cfg.includeDrafts docs :=
        List.take_subset _ _ hd'
      have heq : d' = d := hinj d' (mem_of_mem_assembleCorpus hd'mem) hs
      subst heq
      exact hnotin hd'mem
  · intro hon
    have hcorp : d ∈ assembleCorpus cfg.includeDrafts docs := by
      rw [hon]
      exact mem_assembleCorpus_of_preview hmem
    refine ⟨?_, ?_, ?_, ?_⟩
    · exact (mem_paginate_iff cfg.pageSize _ d).2 hcorp
    · exact ⟨searchRecordOf cfg.excerptLength d, List.mem_map_of_mem _ hcorp, rfl⟩
    · intro htags
      exact mem_tagIndex_of_tags hcorp htags
    · intro hlim
      have hlen : (assembleCorpus cfg.includeDrafts docs).length ≤ cfg.feedLimit := by
        have hperm := List.perm_insertionSort canonicalLE (draftFilter cfg.includeDrafts docs)
        have h1 : (assembleCorpus cfg.includeDrafts docs).length =
            (draftFilter cfg.includeDrafts docs).length := hperm.length_eq
        have h2 : (draftFilter cfg.includeDrafts docs).length ≤ docs.length := by
          rw [hon]
          simp [draftFilter]
        omega
      have htake : (assembleCorpus cfg.includeDrafts docs).take cfg.feedLimit =
          assembleCorpus cfg.includeDrafts docs := List.take_of_length_le hlen
      refine ⟨feedEntryOf d, ?_, rfl⟩
      show feedEntryOf d ∈ buildFeed cfg.feedLimit (assembleCorpus cfg.includeDrafts docs)
      unfold buildFeed
      rw [htake]
      exact List.mem_map_of_mem _ hcorp

/-- C4 counterexample: with preview mode enabled, the tagless draft document
`dNoTag` appears in no tag index entry of its build, so a draft document does
not, in general, appear in all output artifacts under preview mode. -/
theorem draft_visibility_counterexample :
    dNoTag.draft = true ∧ cfgOn.includeDrafts = true ∧
    ¬ inTagIndex dNoTag (runPipeline cfgOn [dNoTag]) := by decide

/-- Witness for C4 on a two-document input holding the tagged draft
`dDraft`. -/
theorem draft_visibility_witness :
    (¬ inListings dDraft (runPipeline cfgOff docsW) ∧
      ¬ inTagIndex dDraft (runPipeline cfgOff docsW) ∧
      ¬ inSearch dDraft (runPipeline cfgOff docsW) ∧
      ¬ inFeed dDraft (runPipeline cfgOff docsW)) ∧
    (inListings dDraft (runPipeline cfgOn docsW) ∧
      inSearch dDraft (runPipeline cfgOn docsW) ∧
      inTagIndex dDraft (runPipeline cfgOn docsW) ∧
      inFeed dDraft (runPipeline cfgOn docsW)) := by
  have h1 := draft_visibility cfgOff docsW dDraft (by decide) (by decide) (by decide)
  have h2 := draft_visibility cfgOn docsW dDraft (by decide) (by decide) (by decide)
  have h2on := h2.2 rfl
  exact ⟨h1.1 rfl, h2on.1, h2on.2.1, h2on.2.2.1 (by decide), h2on.2.2.2 (by decide)⟩
